import Mathlib

/-!
Shallow embedding of the local hybrid document search engine
(src/services/simpleEmbeddingService.ts and src/services/simpleDocumentService.ts).

JavaScript numbers are modelled as exact rationals where only field
operations occur, and as real numbers once square roots (vector
normalization, cosine similarity) enter.  JavaScript strings are modelled
as Lean strings; all string primitives used by the code (toLowerCase,
trim, split, includes, endsWith) are re-implemented structurally over the
character list so that concrete instances reduce by kernel evaluation.
Mutable singleton state (the embedding service document map, global word
frequencies, vocabulary, totalDocuments, and the document service map) is
passed explicitly; JavaScript Map and plain-object tables are association
lists with insertion-order semantics.
-/

namespace EnterpriseSearch

/-- JavaScript toLowerCase, characterwise (the code only ever applies it to
ASCII text produced by the word-character filter or to raw queries). -/
def strToLower (s : String) : String :=
  String.mk (s.data.map Char.toLower)

/-- JavaScript trim: drop whitespace from both ends. -/
def strTrim (s : String) : String :=
  String.mk (((s.data.dropWhile Char.isWhitespace).reverse.dropWhile Char.isWhitespace).reverse)

/-- Whether the first character list occurs contiguously inside the second. -/
def infixAt : List Char → List Char → Bool
  | needle, [] => needle.isEmpty
  | needle, c :: cs => needle.isPrefixOf (c :: cs) || infixAt needle cs

/-- JavaScript a.includes(b): b occurs as a contiguous substring of a. -/
def incl (hay needle : String) : Bool :=
  infixAt needle.data hay.data

/-- JavaScript a.endsWith(b). -/
def strEndsWith (s suffixStr : String) : Bool :=
  suffixStr.data.reverse.isPrefixOf s.data.reverse

/-- Characterwise splitting on a separator predicate.  Runs of separators
produce empty pieces; every caller in the code filters those out, so this
agrees with the JavaScript regex splits split(re-whitespace-plus) and
split(re-sentence-seps) after their filters. -/
def splitChars (p : Char → Bool) : List Char → List Char → List String
  | [], cur => [String.mk cur.reverse]
  | c :: cs, cur =>
    if p c then String.mk cur.reverse :: splitChars p cs []
    else splitChars p cs (c :: cur)

/-- JavaScript split on a character class. -/
def strSplit (s : String) (p : Char → Bool) : List String :=
  splitChars p s.data []

/-- A regex word character: [A-Za-z0-9_]. -/
def isWordChar (c : Char) : Bool :=
  c.isAlphanum || c == '_'

/-- The replace of every non-word, non-whitespace character by a space. -/
def replaceNonWord (s : String) : String :=
  String.mk (s.data.map fun c => if isWordChar c || c.isWhitespace then c else ' ')

/-- Stop words of SimpleEmbeddingService.stopWords. -/
def stopWords : List String :=
  ["the", "and", "or", "but", "in", "on", "at", "to", "for", "of", "with", "by",
   "this", "that", "these", "those", "a", "an", "is", "are", "was", "were", "be",
   "been", "being", "have", "has", "had", "do", "does", "did", "will", "would",
   "could", "should", "may", "might", "must", "can", "shall", "from", "as", "it",
   "he", "she", "they", "we", "you", "me", "him", "her", "us", "them", "my", "your",
   "his", "its", "our", "their", "i", "am", "not", "no", "yes", "if", "when", "where",
   "what", "who", "how", "why", "which", "all", "any", "some", "many", "most", "few"]

/-- SimpleEmbeddingService.preprocessText: lowercase, replace non-word
characters by spaces, split on whitespace, keep tokens of length > 2 that
are not stop words. -/
def preprocessText (text : String) : List String :=
  (strSplit (replaceNonWord (strToLower text)) Char.isWhitespace).filter
    fun word => decide (word.length > 2) && !(stopWords.contains word)

/-- SimpleEmbeddingService.semanticMappings, in declaration order (the order
of Object.entries iteration). -/
def semanticMappings : List (String × List String) :=
  [("fruit", ["apple", "apples", "banana", "bananas", "orange", "oranges", "grape", "grapes", "berry", "berries"]),
   ("food", ["apple", "apples", "banana", "bananas", "bread", "meat", "vegetable", "vegetables"]),
   ("color", ["red", "blue", "green", "yellow", "orange", "purple", "black", "white"]),
   ("animal", ["dog", "cat", "bird", "fish", "lion", "tiger", "elephant", "horse"]),
   ("technology", ["computer", "software", "app", "website", "digital", "tech", "internet"]),
   ("business", ["company", "corporation", "startup", "enterprise", "organization", "firm"])]

/-- Lookup of semanticMappings[word]. -/
def lookupConcept (word : String) : Option (List String) :=
  (semanticMappings.find? fun p => p.1 == word).map Prod.snd

/-- Whether the word is one of the concept keys. -/
def isConcept (word : String) : Bool :=
  (semanticMappings.find? fun p => p.1 == word).isSome

/-- First-occurrence deduplication: the order produced by iterating a
JavaScript Set built from a list. -/
def dedupFirst (l : List String) : List String :=
  l.foldl (fun acc a => if acc.contains a then acc else acc ++ [a]) []

/-- One iteration of the expansion loop body in
SimpleEmbeddingService.expandSemanticTerms: push the related terms of a
concept key, then push every concept whose related-term list contains the
word. -/
def expandStep (acc : List String) (word : String) : List String :=
  let acc1 := match lookupConcept word with
    | some related => acc ++ related
    | none => acc
  semanticMappings.foldl (fun a ct => if ct.2.contains word then a ++ [ct.1] else a) acc1

/-- The expanded word list of expandSemanticTerms before duplicate removal:
the original words followed by everything the single pass over the original
words pushes. -/
def expandSemanticTermsMulti (words : List String) : List String :=
  words.foldl expandStep words

/-- SimpleEmbeddingService.expandSemanticTerms: the expansion pass followed
by Set-based duplicate removal (the returned uniqueExpanded). -/
def expandSemanticTerms (words : List String) : List String :=
  dedupFirst (expandSemanticTermsMulti words)

/-- Occurrence count of a word in a word list. -/
def countOcc (words : List String) (word : String) : ℕ :=
  (words.filter fun w => w == word).length

/-- SimpleEmbeddingService.calculateTFIDF: term frequency of each word of
the input list, normalized by the list length; 0 for absent words (the
wordFreq object has no entry for them). -/
def calculateTFIDF (words : List String) (word : String) : ℚ :=
  if words.contains word then (countOcc words word : ℚ) / (words.length : ℚ) else 0

/-- Truncation to a signed 32-bit integer, as applied by JavaScript bitwise
operations. -/
def toInt32 (n : ℤ) : ℤ :=
  (n + 2 ^ 31) % 2 ^ 32 - 2 ^ 31

/-- One step of SimpleEmbeddingService.hashWord:
hash = ((hash shifted left by 5) - hash) + charCode, truncated to 32 bits. -/
def hashStep (hash : ℤ) (c : ℕ) : ℤ :=
  toInt32 (toInt32 (hash * 32) - hash + c)

/-- SimpleEmbeddingService.hashWord: polynomial rolling hash over the UTF-16
code units (all words reaching it are ASCII), with Math.abs at the end. -/
def hashWord (word : String) : ℕ :=
  (word.data.foldl (fun h c => hashStep h c.toNat) 0).natAbs

/-- The per-word semantic weight multiplier of getEmbedding: 1, times 1.2
for words longer than 6 characters, times 1.1 for -ing and -tion endings,
times 1.5 for concept keys. -/
def semanticWeight (word : String) : ℚ :=
  (if word.length > 6 then (1.2 : ℚ) else 1) *
    (if strEndsWith word "ing" || strEndsWith word "tion" then (1.1 : ℚ) else 1) *
    (if isConcept word then (1.5 : ℚ) else 1)

/-- Component i of the accumulated (pre-normalization) vector of
getEmbedding: the sum of termFrequency times semanticWeight over the unique
words whose hash bucket is i. -/
def rawVecQ (uniqueWords : List String) (tfidf : String → ℚ) (i : ℕ) : ℚ :=
  ((uniqueWords.filter fun w => hashWord w % 100 == i).map
    fun w => tfidf w * semanticWeight w).sum

/-- Sum of squares of a rational list. -/
def sumSqQ (v : List ℚ) : ℚ :=
  (v.map fun x => x * x).sum

/-- Sum of squares of a real list (the reduce of val*val in the code). -/
noncomputable def sumSq (v : List ℝ) : ℝ :=
  (v.map fun x => x * x).sum

/-- Dot product of two equally long real lists (the reduce of a*vectorB[i]
in cosineSimilarity, reached only after the length guard). -/
noncomputable def dotList (a b : List ℝ) : ℝ :=
  (List.zipWith (fun x y => x * y) a b).sum

/-- SimpleEmbeddingService.cosineSimilarity: 0 on length mismatch or empty
input, 0 if either magnitude is 0, otherwise the dot product over the
product of magnitudes, clamped to the interval from 0 to 1. -/
noncomputable def cosineSimilarity (vectorA vectorB : List ℝ) : ℝ :=
  if vectorA.length ≠ vectorB.length ∨ vectorA.length = 0 then 0
  else
    let dotProduct := dotList vectorA vectorB
    let magnitudeA := Real.sqrt (sumSq vectorA)
    let magnitudeB := Real.sqrt (sumSq vectorB)
    if magnitudeA = 0 ∨ magnitudeB = 0 then 0
    else max 0 (min 1 (dotProduct / (magnitudeA * magnitudeB)))

/-- The per-document record kept by the embedding service documents map. -/
structure DocVector where
  tfidf : String → ℚ
  normalized : List ℝ
  wordCount : ℕ

/-- The mutable singleton state of SimpleEmbeddingService: the documents
map, the global word-frequency table, totalDocuments and the vocabulary.
JavaScript Map and plain-object tables are association lists in insertion
order. -/
structure EmbState where
  documents : List (String × DocVector)
  globalWordFreq : List (String × ℝ)
  totalDocuments : ℕ
  vocabulary : List String

/-- The embedding service state at process start. -/
def embInit : EmbState :=
  { documents := [], globalWordFreq := [], totalDocuments := 0, vocabulary := [] }

/-- Lookup in an insertion-ordered association list. -/
def lookupMap {α : Type} (k : String) (m : List (String × α)) : Option α :=
  (m.find? fun p => p.1 == k).map Prod.snd

/-- JavaScript Map.set and object-key assignment: update in place if the
key exists, otherwise append. -/
def mapSet {α : Type} (k : String) (v : α) (m : List (String × α)) : List (String × α) :=
  if m.any fun p => p.1 == k then m.map fun p => if p.1 == k then (k, v) else p
  else m ++ [(k, v)]

/-- JavaScript Map.delete. -/
def mapDelete {α : Type} (k : String) (m : List (String × α)) : List (String × α) :=
  m.filter fun p => !(p.1 == k)

/-- globalWordFreq[word] = (globalWordFreq[word] or 0) + 1. -/
noncomputable def bumpWord (g : List (String × ℝ)) (word : String) : List (String × ℝ) :=
  match lookupMap word g with
  | some x => mapSet word (x + 1) g
  | none => mapSet word 1 g

/-- SimpleEmbeddingService.getEmbedding.  Returns the produced vector
together with the updated service state: the early zero-vector return on an
empty expansion, the global word-frequency bump for every key of the tfidf
map, the documents-map insertion and totalDocuments update when a document
id is supplied, the bucket accumulation over the unique words, and the
final L2 normalization guarded by a positive magnitude. -/
noncomputable def getEmbedding (text : String) (documentId : Option String)
    (st : EmbState) : List ℝ × EmbState :=
  let words := preprocessText text
  let expandedWords := expandSemanticTerms words
  if expandedWords.isEmpty then (List.replicate 100 (0 : ℝ), st)
  else
    let tfidf := calculateTFIDF expandedWords
    let st1 : EmbState :=
      { st with globalWordFreq := (dedupFirst expandedWords).foldl bumpWord st.globalWordFreq }
    let st2 : EmbState :=
      match documentId with
      | some id =>
        let ds := mapSet id
          { tfidf := tfidf, normalized := [], wordCount := expandedWords.length } st1.documents
        { st1 with documents := ds, totalDocuments := ds.length }
      | none => st1
    let uniqueWords := dedupFirst expandedWords
    let vector : List ℝ := (List.range 100).map fun i => ((rawVecQ uniqueWords tfidf i : ℚ) : ℝ)
    let magnitude := Real.sqrt (sumSq vector)
    (if magnitude > 0 then vector.map fun v => v / magnitude else vector, st2)

/-- SimpleEmbeddingService.calculateIDF: recompute the vocabulary from the
global word-frequency keys and overwrite each frequency that occurs in at
least one stored document tfidf table with ln(totalDocuments/docCount). -/
noncomputable def calculateIDF (st : EmbState) : EmbState :=
  let vocab := dedupFirst (st.globalWordFreq.map Prod.fst)
  let g := vocab.foldl (fun g word =>
    let docCount := (st.documents.filter fun p => 0 < p.2.tfidf word).length
    if 0 < docCount then
      mapSet word (Real.log ((st.totalDocuments : ℝ) / (docCount : ℝ))) g
    else g) st.globalWordFreq
  { st with globalWordFreq := g, vocabulary := vocab }

/-- SimpleEmbeddingService.updateVocabulary: recompute IDF data once more
than one document is stored. -/
noncomputable def updateVocabulary (st : EmbState) : EmbState :=
  if 1 < st.totalDocuments then calculateIDF st else st

/-- The closed set of supported file types. -/
inductive FileType where
  | pdf | docx | csv | txt | xlsx | pptx
deriving DecidableEq, Repr

/-- SimpleDocument of simpleDocumentService.ts, with the nested metadata
object flattened into the three optional fields. -/
structure SimpleDocument where
  id : String
  filename : String
  fileType : FileType
  uploadedAt : String
  fileSize : ℕ
  extractedText : String
  keywords : List String
  embedding : Option (List ℝ)
  title : Option String
  author : Option String
  pages : Option ℕ

/-- The searchType tag of a search result. -/
inductive SearchType where
  | semantic | keyword | hybrid
deriving DecidableEq, Repr

/-- One recorded matched section: the trimmed sentence, twice. -/
structure MatchedSection where
  text : String
  context : String
deriving DecidableEq

/-- One entry of the list returned by searchDocuments. -/
structure SearchResult where
  document : SimpleDocument
  score : ℝ
  searchType : SearchType
  matchedSections : List MatchedSection

/-- The sentence split of searchDocuments: split extractedText on runs of
sentence separators and keep pieces that are nonempty after trimming. -/
def sentencesOf (text : String) : List String :=
  (strSplit text fun c => c == '.' || c == '!' || c == '?').filter
    fun s => !(strTrim s == "")

/-- The sentences whose lowercased form contains the lowercased query. -/
def matchedSentencesOf (queryLower : String) (text : String) : List String :=
  (sentencesOf text).filter fun sentence => incl (strToLower sentence) queryLower

/-- The semantic score of one candidate document: cosine similarity against
the stored embedding when it exists (the code skips the computation, leaving
0, when the document has no embedding). -/
noncomputable def semanticScoreOf (queryEmbedding : List ℝ) (document : SimpleDocument) : ℝ :=
  match document.embedding with
  | some emb => cosineSimilarity queryEmbedding emb
  | none => 0

/-- The keyword score of one candidate document: 0.3 for a filename
substring match, 0.15 per keyword that contains the query or is contained
in it, and 0.2 per sentence containing the query. -/
noncomputable def keywordScoreOf (queryLower : String) (document : SimpleDocument) : ℝ :=
  (if incl (strToLower document.filename) queryLower then (0.3 : ℝ) else 0)
    + ((document.keywords.filter fun keyword =>
        incl (strToLower keyword) queryLower || incl queryLower (strToLower keyword)).length : ℕ) * (0.15 : ℝ)
    + ((matchedSentencesOf queryLower document.extractedText).length : ℕ) * (0.2 : ℝ)

/-- The body of the per-document loop of searchDocuments: compute both
scores and the matched sections, apply the 0.18 semantic floor, classify
the result as hybrid, semantic or keyword, and keep the document only when
the final score clears the per-type threshold (0.15 for semantic, 0.1
otherwise).  Returns none exactly when the loop does not push a result. -/
noncomputable def scoreDocument (queryEmbedding : List ℝ) (queryLower : String)
    (document : SimpleDocument) : Option SearchResult :=
  let semanticScore := semanticScoreOf queryEmbedding document
  let keywordScore := keywordScoreOf queryLower document
  let matchList := (matchedSentencesOf queryLower document.extractedText).map
    fun sentence => ({ text := strTrim sentence, context := strTrim sentence } : MatchedSection)
  let effectiveSemanticScore := if semanticScore > (0.18 : ℝ) then semanticScore else 0
  let scored : ℝ × SearchType :=
    if 0 < effectiveSemanticScore ∧ 0 < keywordScore then
      (effectiveSemanticScore * 0.7 + keywordScore * 0.3, SearchType.hybrid)
    else if 0 < effectiveSemanticScore then (effectiveSemanticScore, SearchType.semantic)
    else if 0 < keywordScore then (min keywordScore 1, SearchType.keyword)
    else (0, SearchType.keyword)
  let threshold : ℝ := if scored.2 = SearchType.semantic then 0.15 else 0.1
  if scored.1 > threshold then
    some { document := document, score := scored.1, searchType := scored.2,
           matchedSections := matchList.take 3 }
  else none

/-- The combined mutable state of the two singleton services: the document
service map and the embedding service state. -/
structure SystemState where
  docs : List (String × SimpleDocument)
  emb : EmbState

/-- Both services at process start. -/
def initState : SystemState :=
  { docs := [], emb := embInit }

/-- The candidate result list built by the document loop of
searchDocuments, in document-map insertion order, before sorting. -/
noncomputable def candidateResults (query : String) (st : SystemState) : List SearchResult :=
  (st.docs.map Prod.snd).filterMap
    (scoreDocument (getEmbedding query none st.emb).1 (strToLower query))

/-- SimpleDocumentService.searchDocuments: empty list for a query that
trims to nothing, otherwise the candidate list stably sorted by score
descending and capped at 10, together with the updated state (the query
embedding generation mutates the embedding service state). -/
noncomputable def searchDocuments (query : String) (st : SystemState) :
    List SearchResult × SystemState :=
  if strTrim query = "" then ([], st)
  else
    ((List.insertionSort (fun a b => b.score ≤ a.score) (candidateResults query st)).take 10,
     { st with emb := (getEmbedding query none st.emb).2 })

/-- The stop-word list private to SimpleDocumentService.extractKeywords. -/
def keywordStopWords : List String :=
  ["the", "and", "or", "but", "in", "on", "at", "to", "for", "of", "with", "by",
   "this", "that", "these", "those", "a", "an", "is", "are", "was", "were", "be",
   "been", "being", "have", "has", "had", "do", "does", "did", "will", "would",
   "could", "should", "may", "might", "must", "can", "shall", "from", "text",
   "document", "file", "content", "contains", "includes"]

/-- SimpleDocumentService.extractKeywords: lowercase, strip non-word
characters, keep tokens longer than 3 that are not stop words, and return
the 8 most frequent ones, most frequent first, ties in first-occurrence
order (the stable sort of Object.entries). -/
def extractKeywords (text : String) : List String :=
  let words := (strSplit (replaceNonWord (strToLower text)) Char.isWhitespace).filter
    fun word => decide (word.length > 3) && !(keywordStopWords.contains word)
  let entries := (dedupFirst words).map fun w => (w, countOcc words w)
  ((List.insertionSort (fun p q => q.2 ≤ p.2) entries).take 8).map Prod.fst

/-- The filename.replace of uploadDocument that strips a final dot-led
extension when building the metadata title. -/
def stripExt (filename : String) : String :=
  let rev := filename.data.reverse
  let ext := rev.takeWhile fun c => !(c == '.' || c == '/')
  match rev.drop ext.length with
  | '.' :: rest => if ext.isEmpty then filename else String.mk rest.reverse
  | _ => filename

/-- The successful path of SimpleDocumentService.uploadDocument, after the
extraction collaborator has produced the plain text.  The generated id, the
upload timestamp and the random page count are boundary inputs here.  The
embedding is generated (mutating the embedding service state), the document
is stored, and the vocabulary refresh runs last. -/
noncomputable def uploadDocument (id filename : String) (fileType : FileType)
    (uploadedAt : String) (fileSize : ℕ) (pages : ℕ) (extractedText : String)
    (st : SystemState) : SystemState :=
  let emb := getEmbedding extractedText (some id) st.emb
  let document : SimpleDocument :=
    { id := id, filename := filename, fileType := fileType, uploadedAt := uploadedAt,
      fileSize := fileSize, extractedText := extractedText,
      keywords := extractKeywords extractedText,
      embedding := some emb.1,
      title := some (stripExt filename), author := none, pages := some pages }
  let st1 : SystemState := { st with docs := mapSet id document st.docs, emb := emb.2 }
  { st1 with emb := updateVocabulary st1.emb }

/-- SimpleDocumentService.deleteDocument: remove the id from the document
service map only; the embedding service state is untouched. -/
def deleteDocument (id : String) (st : SystemState) : Bool × SystemState :=
  (st.docs.any fun p => p.1 == id, { st with docs := mapDelete id st.docs })

/-- The arguments of one modelled upload. -/
structure UploadArgs where
  id : String
  filename : String
  fileType : FileType
  uploadedAt : String
  fileSize : ℕ
  pages : ℕ
  extractedText : String

/-- Fold a list of uploads over a starting state. -/
noncomputable def uploadAll (ops : List UploadArgs) (st : SystemState) : SystemState :=
  ops.foldl (fun s a =>
    uploadDocument a.id a.filename a.fileType a.uploadedAt a.fileSize a.pages a.extractedText s) st

/-- The query vector the pipeline produces for the query string apple. -/
noncomputable def appleVec : List ℝ :=
  (getEmbedding "apple" none embInit).1

/-- A stored document whose text is eight sentences each reading apple and
whose stored vector is exactly the query vector for apple (as would happen
for a document whose extracted text preprocesses identically). -/
noncomputable def docA : SimpleDocument :=
  { id := "a1", filename := "doc.txt", fileType := FileType.txt, uploadedAt := "t",
    fileSize := 10, extractedText := "apple. apple. apple. apple. apple. apple. apple. apple",
    keywords := [], embedding := some appleVec, title := none, author := none, pages := none }

/-- A store holding only docA. -/
noncomputable def stA : SystemState :=
  { docs := [("a1", docA)], emb := embInit }

/-- The single result searching apple over stA produces: a hybrid result
whose score 0.7 plus 0.3 times 1.6 exceeds 1. -/
noncomputable def resA : SearchResult :=
  { document := docA, score := (59 / 50 : ℝ), searchType := SearchType.hybrid,
    matchedSections :=
      [{ text := "apple", context := "apple" }, { text := "apple", context := "apple" },
       { text := "apple", context := "apple" }] }

/-- A stored document with empty extracted text, empty keyword list and the
zero vector (the shape uploadDocument produces for empty text), but whose
filename contains the query apple. -/
noncomputable def docB : SimpleDocument :=
  { id := "b1", filename := "apple.txt", fileType := FileType.txt, uploadedAt := "t",
    fileSize := 0, extractedText := "", keywords := [],
    embedding := some (List.replicate 100 (0 : ℝ)), title := none, author := none, pages := none }

/-- A store holding only docB. -/
noncomputable def stB : SystemState :=
  { docs := [("b1", docB)], emb := embInit }

/-- The single result searching apple over stB produces. -/
noncomputable def resB : SearchResult :=
  { document := docB, score := (0.3 : ℝ), searchType := SearchType.keyword,
    matchedSections := [] }

/-- A stored document with empty extracted text, empty keyword list, the
zero vector, and a filename unrelated to the query apple. -/
noncomputable def docE : SimpleDocument :=
  { id := "e1", filename := "b.txt", fileType := FileType.txt, uploadedAt := "t",
    fileSize := 0, extractedText := "", keywords := [],
    embedding := some (List.replicate 100 (0 : ℝ)), title := none, author := none, pages := none }

/-- One concrete upload whose text expands to a nonempty token list. -/
def argD : UploadArgs :=
  { id := "d1", filename := "a.txt", fileType := FileType.txt, uploadedAt := "t",
    fileSize := 5, pages := 1, extractedText := "apple" }

/-- The sort relation used for search results: descending by score, with
the stable insertion placing earlier candidates before equal scores. -/
noncomputable def byScoreDesc : SearchResult → SearchResult → Prop :=
  fun a b => b.score ≤ a.score

noncomputable instance : DecidableRel byScoreDesc :=
  fun a b => Real.decidableLE b.score a.score

lemma sumSq_nonneg (v : List ℝ) : 0 ≤ sumSq v := by
  refine List.sum_nonneg ?_
  intro x hx
  rcases List.mem_map.mp hx with ⟨y, _, rfl⟩
  exact mul_self_nonneg y

lemma sumSq_cons (x : ℝ) (v : List ℝ) : sumSq (x :: v) = x * x + sumSq v := by
  simp [sumSq]

lemma sumSq_pos_of_mem {v : List ℝ} {x : ℝ} (hx : x ∈ v) (hne : x ≠ 0) : 0 < sumSq v := by
  induction v with
  | nil => cases hx
  | cons a t ih =>
    rw [sumSq_cons]
    rcases List.mem_cons.mp hx with rfl | hmem
    · have h1 : 0 < x * x := mul_self_pos.mpr hne
      have h2 : 0 ≤ sumSq t := sumSq_nonneg t
      linarith
    · have h1 : 0 ≤ a * a := mul_self_nonneg a
      have h2 : 0 < sumSq t := ih hmem
      linarith

lemma sumSqQ_nonneg (v : List ℚ) : 0 ≤ sumSqQ v := by
  refine List.sum_nonneg ?_
  intro x hx
  rcases List.mem_map.mp hx with ⟨y, _, rfl⟩
  exact mul_self_nonneg y

lemma sumSqQ_pos_of_mem {v : List ℚ} {x : ℚ} (hx : x ∈ v) (hne : x ≠ 0) : 0 < sumSqQ v := by
  induction v with
  | nil => cases hx
  | cons a t ih =>
    have hc : sumSqQ (a :: t) = a * a + sumSqQ t := by simp [sumSqQ]
    rw [hc]
    rcases List.mem_cons.mp hx with rfl | hmem
    · have h1 : 0 < x * x := mul_self_pos.mpr hne
      have h2 : 0 ≤ sumSqQ t := sumSqQ_nonneg t
      linarith
    · have h1 : 0 ≤ a * a := mul_self_nonneg a
      have h2 : 0 < sumSqQ t := ih hmem
      linarith

lemma sumSq_map_cast (l : List ℚ) : sumSq (l.map (Rat.cast : ℚ → ℝ)) = ((sumSqQ l : ℚ) : ℝ) := by
  induction l with
  | nil => simp [sumSq, sumSqQ]
  | cons a t ih =>
    have hc : sumSqQ (a :: t) = a * a + sumSqQ t := by simp [sumSqQ]
    rw [List.map_cons, sumSq_cons, ih, hc]
    push_cast
    ring

lemma sumSq_map_div (v : List ℝ) (c : ℝ) :
    sumSq (v.map fun x => x / c) = sumSq v / (c * c) := by
  induction v with
  | nil => simp [sumSq]
  | cons a t ih =>
    rw [List.map_cons, sumSq_cons, ih, sumSq_cons, add_div]
    congr 1
    rw [div_mul_div_comm]

lemma dotList_self (v : List ℝ) : dotList v v = sumSq v := by
  unfold dotList sumSq
  congr 1
  induction v with
  | nil => rfl
  | cons a t ih => simp [ih]

lemma cosineSimilarity_nonneg (a b : List ℝ) : 0 ≤ cosineSimilarity a b := by
  unfold cosineSimilarity
  split
  · exact le_refl 0
  · dsimp only
    split
    · exact le_refl 0
    · exact le_max_left 0 _

lemma cosineSimilarity_le_one (a b : List ℝ) : cosineSimilarity a b ≤ 1 := by
  unfold cosineSimilarity
  split
  · exact zero_le_one
  · dsimp only
    split
    · exact zero_le_one
    · exact max_le zero_le_one (min_le_left 1 _)

lemma cosineSimilarity_zero_right (a : List ℝ) (n : ℕ) :
    cosineSimilarity a (List.replicate n 0) = 0 := by
  unfold cosineSimilarity
  split
  · rfl
  · dsimp only
    rename_i hlen
    have hz : sumSq (List.replicate n (0 : ℝ)) = 0 := by
      simp [sumSq, List.map_replicate]
    rw [if_pos]
    right
    rw [hz, Real.sqrt_zero]

lemma cosineSimilarity_self {v : List ℝ} (h : 0 < sumSq v) : cosineSimilarity v v = 1 := by
  have hne : v ≠ [] := by
    intro hv
    rw [hv] at h
    simp [sumSq] at h
  have hlen : ¬ (v.length ≠ v.length ∨ v.length = 0) := by
    push_neg
    exact ⟨rfl, List.length_pos.mpr hne |>.ne'⟩
  unfold cosineSimilarity
  rw [if_neg hlen]
  dsimp only
  have hsqrt : Real.sqrt (sumSq v) ≠ 0 := by
    exact (Real.sqrt_pos.mpr h).ne'
  rw [if_neg (by push_neg; exact ⟨hsqrt, hsqrt⟩)]
  rw [dotList_self, Real.mul_self_sqrt (le_of_lt h), div_self h.ne']
  simp

lemma dedupFirst_aux_mem (l : List String) (acc : List String) (x : String) :
    x ∈ l.foldl (fun acc a => if acc.contains a then acc else acc ++ [a]) acc ↔
      x ∈ acc ∨ x ∈ l := by
  induction l generalizing acc with
  | nil => simp
  | cons a t ih =>
    rw [List.foldl_cons]
    by_cases h : acc.contains a
    · rw [if_pos h, ih]
      have ha : a ∈ acc := by simpa using h
      constructor
      · rintro (hx | hx)
        · exact Or.inl hx
        · exact Or.inr (List.mem_cons_of_mem a hx)
      · rintro (hx | hx)
        · exact Or.inl hx
        · rcases List.mem_cons.mp hx with rfl | hx
          · exact Or.inl ha
          · exact Or.inr hx
    · rw [if_neg h, ih]
      simp only [List.mem_append, List.mem_singleton, List.mem_cons]
      tauto

lemma dedupFirst_aux_nodup (l : List String) (acc : List String) (hacc : acc.Nodup) :
    (l.foldl (fun acc a => if acc.contains a then acc else acc ++ [a]) acc).Nodup := by
  induction l generalizing acc with
  | nil => simpa using hacc
  | cons a t ih =>
    rw [List.foldl_cons]
    by_cases h : acc.contains a
    · rw [if_pos h]
      exact ih acc hacc
    · rw [if_neg h]
      refine ih _ ?_
      have ha : a ∉ acc := by simpa using h
      simpa [List.nodup_append, hacc] using ha

lemma mem_dedupFirst (l : List String) (x : String) : x ∈ dedupFirst l ↔ x ∈ l := by
  unfold dedupFirst
  rw [dedupFirst_aux_mem]
  simp

lemma dedupFirst_nodup (l : List String) : (dedupFirst l).Nodup :=
  dedupFirst_aux_nodup l [] List.nodup_nil

lemma countOcc_eq_count (words : List String) (word : String) :
    countOcc words word = words.count word := by
  unfold countOcc
  rw [List.count]
  rw [List.countP_eq_length_filter]

lemma calculateTFIDF_of_mem {words : List String} {word : String} (h : word ∈ words) :
    calculateTFIDF words word = (countOcc words word : ℚ) / (words.length : ℚ) := by
  unfold calculateTFIDF
  rw [if_pos (by simpa using h)]

lemma calculateTFIDF_pos {words : List String} {word : String} (h : word ∈ words) :
    0 < calculateTFIDF words word := by
  rw [calculateTFIDF_of_mem h]
  have h1 : 0 < countOcc words word := by
    rw [countOcc_eq_count]
    exact List.count_pos_iff.mpr h
  have h2 : 0 < words.length := List.length_pos.mpr (List.ne_nil_of_mem h)
  positivity

lemma calculateTFIDF_nonneg (words : List String) (word : String) :
    0 ≤ calculateTFIDF words word := by
  unfold calculateTFIDF
  split
  · positivity
  · exact le_refl 0

lemma semanticWeight_pos (word : String) : 0 < semanticWeight word := by
  unfold semanticWeight
  split <;> split <;> split <;> norm_num

lemma rawVecQ_nonneg (uws : List String) (tf : String → ℚ) (htf : ∀ w, 0 ≤ tf w) (i : ℕ) :
    0 ≤ rawVecQ uws tf i := by
  refine List.sum_nonneg ?_
  intro x hx
  rcases List.mem_map.mp hx with ⟨w, _, rfl⟩
  exact mul_nonneg (htf w) (le_of_lt (semanticWeight_pos w))

lemma rawVecQ_pos {uws : List String} {tf : String → ℚ} {w : String}
    (hw : w ∈ uws) (htf0 : ∀ x, 0 ≤ tf x) (htf : 0 < tf w) :
    0 < rawVecQ uws tf (hashWord w % 100) := by
  unfold rawVecQ
  have hwf : w ∈ uws.filter fun x => hashWord x % 100 == hashWord w % 100 := by
    rw [List.mem_filter]
    exact ⟨hw, by simp⟩
  have hmem : tf w * semanticWeight w ∈
      ((uws.filter fun x => hashWord x % 100 == hashWord w % 100).map
        fun x => tf x * semanticWeight x) :=
    List.mem_map.mpr ⟨w, hwf, rfl⟩
  have hx : 0 < tf w * semanticWeight w := mul_pos htf (semanticWeight_pos w)
  have hnn : ∀ x ∈ ((uws.filter fun x => hashWord x % 100 == hashWord w % 100).map
      fun x => tf x * semanticWeight x), 0 ≤ x := by
    intro x hxm
    rcases List.mem_map.mp hxm with ⟨y, _, rfl⟩
    exact mul_nonneg (htf0 y) (le_of_lt (semanticWeight_pos y))
  calc 0 < tf w * semanticWeight w := hx
    _ ≤ _ := List.single_le_sum hnn _ hmem

lemma filter_orderedInsert_of_const (p : SearchResult → Bool)
    (hp : ∀ a b, p a = true → p b = true → a.score = b.score)
    (a : SearchResult) (l : List SearchResult) :
    (List.orderedInsert byScoreDesc a l).filter p =
      if p a then a :: l.filter p else l.filter p := by
  induction l with
  | nil =>
    by_cases hpa : p a <;> simp [List.orderedInsert, List.filter_cons, hpa]
  | cons b t ih =>
    simp only [List.orderedInsert]
    by_cases hr : byScoreDesc a b
    · rw [if_pos hr]
      by_cases hpa : p a <;> by_cases hpb : p b <;>
        simp [List.filter_cons, hpa, hpb]
    · rw [if_neg hr]
      by_cases hpa : p a
      · have hpb : ¬ p b = true := by
          intro hq
          have hsc := hp a b hpa hq
          unfold byScoreDesc at hr
          rw [hsc] at hr
          exact hr (le_refl _)
        simp [List.filter_cons, hpa, hpb, ih]
      · by_cases hpb : p b <;> simp [List.filter_cons, hpa, hpb, ih]

lemma filter_insertionSort_of_const (p : SearchResult → Bool)
    (hp : ∀ a b, p a = true → p b = true → a.score = b.score)
    (l : List SearchResult) :
    (List.insertionSort byScoreDesc l).filter p = l.filter p := by
  induction l with
  | nil => rfl
  | cons a t ih =>
    simp only [List.insertionSort]
    rw [filter_orderedInsert_of_const p hp, ih]
    by_cases hpa : p a <;> simp [List.filter_cons, hpa]

lemma sorted_byScoreDesc (l : List SearchResult) :
    (List.insertionSort byScoreDesc l).Sorted byScoreDesc := by
  haveI : IsTotal SearchResult byScoreDesc :=
    ⟨fun a b => le_total b.score a.score⟩
  haveI : IsTrans SearchResult byScoreDesc :=
    ⟨fun _ _ _ hab hbc => le_trans hbc hab⟩
  exact List.sorted_insertionSort byScoreDesc l

/-- Unfolding of searchDocuments for a query that trims to the empty
string. -/
lemma searchDocuments_empty {query : String} (st : SystemState) (h : strTrim query = "") :
    searchDocuments query st = ([], st) := by
  unfold searchDocuments
  rw [if_pos h]

/-- Unfolding of searchDocuments for a query that does not trim to the
empty string. -/
lemma searchDocuments_of_ne {query : String} (st : SystemState) (h : ¬ strTrim query = "") :
    searchDocuments query st =
      ((List.insertionSort byScoreDesc (candidateResults query st)).take 10,
       { st with emb := (getEmbedding query none st.emb).2 }) := by
  unfold searchDocuments byScoreDesc
  rw [if_neg h]

lemma semanticScoreOf_nonneg (qe : List ℝ) (d : SimpleDocument) :
    0 ≤ semanticScoreOf qe d := by
  unfold semanticScoreOf
  cases d.embedding
  · exact le_refl 0
  · exact cosineSimilarity_nonneg _ _

lemma semanticScoreOf_le_one (qe : List ℝ) (d : SimpleDocument) :
    semanticScoreOf qe d ≤ 1 := by
  unfold semanticScoreOf
  cases d.embedding
  · exact zero_le_one
  · exact cosineSimilarity_le_one _ _

lemma keywordScoreOf_nonneg (ql : String) (d : SimpleDocument) :
    0 ≤ keywordScoreOf ql d := by
  unfold keywordScoreOf
  have h1 : (0 : ℝ) ≤ if incl (strToLower d.filename) ql then (0.3 : ℝ) else 0 := by
    split <;> norm_num
  have h2 : (0 : ℝ) ≤ ((d.keywords.filter fun keyword =>
      incl (strToLower keyword) ql || incl ql (strToLower keyword)).length : ℕ) * (0.15 : ℝ) := by
    positivity
  have h3 : (0 : ℝ) ≤ ((matchedSentencesOf ql d.extractedText).length : ℕ) * (0.2 : ℝ) := by
    positivity
  linarith

/-- Inversion of the per-document scoring: every produced result carries
the scored document, the matched sections are the first three trimmed
matching sentences, the score cleared the 0.1 floor, it is nonnegative,
and non-hybrid scores are at most 1. -/
lemma scoreDocument_inv {qe : List ℝ} {ql : String} {d : SimpleDocument} {r : SearchResult}
    (h : scoreDocument qe ql d = some r) :
    r.document = d ∧
    r.matchedSections = ((matchedSentencesOf ql d.extractedText).map
      fun sentence => ({ text := strTrim sentence, context := strTrim sentence } : MatchedSection)).take 3 ∧
    0 ≤ r.score ∧ (0.1 : ℝ) < r.score ∧
    (r.searchType ≠ SearchType.hybrid → r.score ≤ 1) := by
  unfold scoreDocument at h
  set e0 := semanticScoreOf qe d with he0
  set k := keywordScoreOf ql d with hk
  dsimp only at h
  set e := if e0 > (0.18 : ℝ) then e0 else 0 with he
  have hknn : 0 ≤ k := keywordScoreOf_nonneg ql d
  have hele : e ≤ 1 := by
    rw [he]
    split
    · exact semanticScoreOf_le_one qe d
    · exact zero_le_one
  by_cases h1 : 0 < e ∧ 0 < k
  · rw [if_pos h1] at h
    dsimp only at h
    rw [if_neg (show ¬ (SearchType.hybrid = SearchType.semantic) by decide)] at h
    by_cases h2 : e * 0.7 + k * 0.3 > (0.1 : ℝ)
    · rw [if_pos h2] at h
      have hr := (Option.some.injEq _ _).mp h
      rw [← hr]
      refine ⟨rfl, rfl, ?_, ?_, ?_⟩
      · have := h1.1
        have := h1.2
        nlinarith
      · exact h2
      · intro hne
        exact absurd rfl hne
    · rw [if_neg h2] at h
      exact absurd h (by simp)
  · rw [if_neg h1] at h
    by_cases h2 : 0 < e
    · rw [if_pos h2] at h
      dsimp only at h
      rw [if_pos rfl] at h
      by_cases h3 : e > (0.15 : ℝ)
      · rw [if_pos h3] at h
        have hr := (Option.some.injEq _ _).mp h
        rw [← hr]
        refine ⟨rfl, rfl, le_of_lt h2, by linarith, fun _ => hele⟩
      · rw [if_neg h3] at h
        exact absurd h (by simp)
    · rw [if_neg h2] at h
      by_cases h3 : 0 < k
      · rw [if_pos h3] at h
        dsimp only at h
        rw [if_neg (show ¬ (SearchType.keyword = SearchType.semantic) by decide)] at h
        by_cases h4 : min k 1 > (0.1 : ℝ)
        · rw [if_pos h4] at h
          have hr := (Option.some.injEq _ _).mp h
          rw [← hr]
          refine ⟨rfl, rfl, ?_, h4, fun _ => min_le_right k 1⟩
          exact le_min (le_of_lt h3) zero_le_one
        · rw [if_neg h4] at h
          exact absurd h (by simp)
      · rw [if_neg h3] at h
        dsimp only at h
        rw [if_neg (show ¬ (SearchType.keyword = SearchType.semantic) by decide)] at h
        rw [if_neg (show ¬ ((0 : ℝ) > 0.1) by norm_num)] at h
        exact absurd h (by simp)

/-- A document whose semantic and keyword scores are both zero is not
pushed to the result list. -/
lemma scoreDocument_none {qe : List ℝ} {ql : String} {d : SimpleDocument}
    (hsem : semanticScoreOf qe d = 0) (hkw : keywordScoreOf ql d = 0) :
    scoreDocument qe ql d = none := by
  unfold scoreDocument
  rw [hsem, hkw]
  norm_num
  rw [if_neg (show ¬ (SearchType.keyword = SearchType.semantic) by decide)]
  norm_num

/-- Every member of the search result list is the scoring output of some
document of the store. -/
lemma mem_search {q : String} {st : SystemState} {r : SearchResult}
    (h : r ∈ (searchDocuments q st).1) :
    ∃ d ∈ st.docs.map Prod.snd,
      scoreDocument (getEmbedding q none st.emb).1 (strToLower q) d = some r := by
  by_cases hq : strTrim q = ""
  · rw [searchDocuments_empty st hq] at h
    simp at h
  · rw [searchDocuments_of_ne st hq] at h
    have h1 : r ∈ List.insertionSort byScoreDesc (candidateResults q st) :=
      (List.take_sublist 10 _).subset h
    have h2 : r ∈ candidateResults q st := (List.mem_insertionSort byScoreDesc).mp h1
    exact List.mem_filterMap.mp h2

lemma getEmbedding_none_state (t : String) (st : EmbState) :
    ((getEmbedding t none st).2).documents = st.documents ∧
    ((getEmbedding t none st).2).totalDocuments = st.totalDocuments ∧
    ((getEmbedding t none st).2).vocabulary = st.vocabulary := by
  unfold getEmbedding
  by_cases h : (expandSemanticTerms (preprocessText t)).isEmpty <;> simp [h]

lemma getEmbedding_fst_congr (t : String) (id1 id2 : Option String) (st1 st2 : EmbState) :
    (getEmbedding t id1 st1).1 = (getEmbedding t id2 st2).1 := by
  unfold getEmbedding
  by_cases h : (expandSemanticTerms (preprocessText t)).isEmpty
  · simp [h]
  · cases id1 <;> cases id2 <;> simp [h]

lemma candidateResults_congr {q : String} {st st' : SystemState} (h : st'.docs = st.docs) :
    candidateResults q st' = candidateResults q st := by
  unfold candidateResults
  rw [h, getEmbedding_fst_congr q none none st'.emb st.emb]

lemma sumSq_normalized {v : List ℝ} (h : 0 < sumSq v) :
    sumSq (v.map fun x => x / Real.sqrt (sumSq v)) = 1 := by
  rw [sumSq_map_div, Real.mul_self_sqrt (le_of_lt h), div_self h.ne']

/-- For a text with a nonempty expansion whose accumulated raw vector is
not the zero vector, the embedding is L2 normalized: its sum of squares
is 1. -/
lemma sumSq_getEmbedding (t : String) (id : Option String) (st : EmbState)
    (hne : (expandSemanticTerms (preprocessText t)).isEmpty = false)
    (hpos : 0 < sumSqQ ((List.range 100).map
      (rawVecQ (dedupFirst (expandSemanticTerms (preprocessText t)))
        (calculateTFIDF (expandSemanticTerms (preprocessText t)))))) :
    sumSq (getEmbedding t id st).1 = 1 := by
  unfold getEmbedding
  have hvec : ((List.range 100).map fun i =>
      ((rawVecQ (dedupFirst (expandSemanticTerms (preprocessText t)))
        (calculateTFIDF (expandSemanticTerms (preprocessText t))) i : ℚ) : ℝ)) =
      ((List.range 100).map
        (rawVecQ (dedupFirst (expandSemanticTerms (preprocessText t)))
          (calculateTFIDF (expandSemanticTerms (preprocessText t))))).map (Rat.cast : ℚ → ℝ) := by
    rw [List.map_map]
    rfl
  have hS : sumSq ((List.range 100).map fun i =>
      ((rawVecQ (dedupFirst (expandSemanticTerms (preprocessText t)))
        (calculateTFIDF (expandSemanticTerms (preprocessText t))) i : ℚ) : ℝ)) > 0 := by
    rw [hvec, sumSq_map_cast]
    exact_mod_cast hpos
  cases id <;>
    simp only [hne, Bool.false_eq_true, if_false, if_pos (Real.sqrt_pos.mpr hS)] <;>
    exact sumSq_normalized hS

/-- The raw accumulated vector for the query apple has positive square
sum. -/
lemma applePos : 0 < sumSqQ ((List.range 100).map
    (rawVecQ (dedupFirst (expandSemanticTerms (preprocessText "apple")))
      (calculateTFIDF (expandSemanticTerms (preprocessText "apple"))))) := by
  have hexp : expandSemanticTerms (preprocessText "apple") = ["apple", "fruit", "food"] := by
    decide
  have hded : dedupFirst ["apple", "fruit", "food"] = ["apple", "fruit", "food"] := by decide
  rw [hexp, hded]
  have htf0 : ∀ x, 0 ≤ calculateTFIDF ["apple", "fruit", "food"] x := fun x =>
    calculateTFIDF_nonneg _ x
  have htf : 0 < calculateTFIDF ["apple", "fruit", "food"] "apple" :=
    calculateTFIDF_pos (by simp)
  have hraw : 0 < rawVecQ ["apple", "fruit", "food"]
      (calculateTFIDF ["apple", "fruit", "food"]) (hashWord "apple" % 100) :=
    rawVecQ_pos (by simp) htf0 htf
  have hbmem : rawVecQ ["apple", "fruit", "food"]
      (calculateTFIDF ["apple", "fruit", "food"]) (hashWord "apple" % 100) ∈
      (List.range 100).map (rawVecQ ["apple", "fruit", "food"]
        (calculateTFIDF ["apple", "fruit", "food"])) :=
    List.mem_map.mpr ⟨hashWord "apple" % 100,
      List.mem_range.mpr (Nat.mod_lt _ (by norm_num)), rfl⟩
  exact sumSqQ_pos_of_mem hbmem hraw.ne'

/-- Searching apple against the store holding only docB: the semantic score
is 0 because the stored vector is the zero vector. -/
lemma semB : semanticScoreOf (getEmbedding "apple" none stB.emb).1 docB = 0 := by
  show cosineSimilarity (getEmbedding "apple" none stB.emb).1 (List.replicate 100 (0 : ℝ)) = 0
  exact cosineSimilarity_zero_right _ 100

lemma kwB : keywordScoreOf (strToLower "apple") docB = (0.3 : ℝ) := by
  unfold keywordScoreOf
  rw [if_pos (show incl (strToLower docB.filename) (strToLower "apple") = true by decide)]
  have h1 : docB.keywords = [] := rfl
  have h2 : matchedSentencesOf (strToLower "apple") docB.extractedText = [] := by decide
  rw [h1, h2]
  norm_num

lemma scoreB : scoreDocument (getEmbedding "apple" none stB.emb).1 (strToLower "apple") docB
    = some resB := by
  unfold scoreDocument
  rw [semB, kwB]
  have h2 : matchedSentencesOf (strToLower "apple") docB.extractedText = [] := by decide
  rw [h2]
  norm_num
  rw [if_neg (show ¬ (SearchType.keyword = SearchType.semantic) by decide)]
  refine ⟨by norm_num, ?_⟩
  unfold resB
  congr 1
  norm_num

lemma searchB : (searchDocuments "apple" stB).1 = [resB] := by
  rw [searchDocuments_of_ne stB (by decide)]
  dsimp only
  have hc : candidateResults "apple" stB = [resB] := by
    unfold candidateResults
    show List.filterMap _ ([("b1", docB)].map Prod.snd) = [resB]
    rw [List.map_cons, List.map_nil, List.filterMap_cons]
    rw [scoreB]
    rfl
  rw [hc]
  rfl

/-- Searching apple against the store holding only docA: the stored vector
is the query vector itself, so the semantic score is exactly 1. -/
lemma semA : semanticScoreOf (getEmbedding "apple" none stA.emb).1 docA = 1 := by
  show cosineSimilarity (getEmbedding "apple" none stA.emb).1 appleVec = 1
  have h : appleVec = (getEmbedding "apple" none stA.emb).1 := rfl
  rw [h]
  apply cosineSimilarity_self
  rw [sumSq_getEmbedding "apple" none stA.emb (by decide) applePos]
  norm_num

lemma kwA : keywordScoreOf (strToLower "apple") docA = (8 / 5 : ℝ) := by
  unfold keywordScoreOf
  rw [if_neg (show ¬ (incl (strToLower docA.filename) (strToLower "apple") = true) by decide)]
  have h1 : docA.keywords = [] := rfl
  have h2 : (matchedSentencesOf (strToLower "apple") docA.extractedText).length = 8 := by decide
  rw [h1, h2]
  norm_num

lemma scoreA : scoreDocument (getEmbedding "apple" none stA.emb).1 (strToLower "apple") docA
    = some resA := by
  unfold scoreDocument
  rw [semA, kwA]
  have hms : ((matchedSentencesOf (strToLower "apple") docA.extractedText).map
      fun sentence => ({ text := strTrim sentence, context := strTrim sentence } : MatchedSection)).take 3 =
      [{ text := "apple", context := "apple" }, { text := "apple", context := "apple" },
       { text := "apple", context := "apple" }] := by decide
  norm_num
  rw [if_neg (show ¬ (SearchType.hybrid = SearchType.semantic) by decide)]
  refine ⟨by norm_num, ?_⟩
  rw [hms]
  rfl

lemma searchA : (searchDocuments "apple" stA).1 = [resA] := by
  rw [searchDocuments_of_ne stA (by decide)]
  dsimp only
  have hc : candidateResults "apple" stA = [resA] := by
    unfold candidateResults
    show List.filterMap _ ([("a1", docA)].map Prod.snd) = [resA]
    rw [List.map_cons, List.map_nil, List.filterMap_cons]
    rw [scoreA]
    rfl
  rw [hc]
  rfl

lemma any_keys {α : Type} (k : String) (m : List (String × α)) :
    (m.any fun p => p.1 == k) = ((m.map Prod.fst).any fun s => s == k) := by
  induction m with
  | nil => rfl
  | cons p t ih => simp [List.any_cons, ih]

lemma mapSet_keys {α : Type} (k : String) (v : α) (m : List (String × α)) :
    (mapSet k v m).map Prod.fst =
      if m.any fun p => p.1 == k then m.map Prod.fst else m.map Prod.fst ++ [k] := by
  unfold mapSet
  split
  · rw [List.map_map]
    apply List.map_congr_left
    intro p _
    by_cases hpk : p.1 == k
    · have hk : p.1 = k := by simpa using hpk
      simp [Function.comp, hpk, hk]
    · simp [Function.comp, hpk]
  · simp

lemma bumpWord_keys (g : List (String × ℝ)) (w : String) :
    (bumpWord g w).map Prod.fst =
      if g.any fun p => p.1 == w then g.map Prod.fst else g.map Prod.fst ++ [w] := by
  unfold bumpWord
  cases lookupMap w g <;> rw [mapSet_keys]

lemma foldl_bumpWord_keys (ws : List String) (g : List (String × ℝ)) :
    (ws.foldl bumpWord g).map Prod.fst =
      ws.foldl (fun keys w => if keys.any fun s => s == w then keys else keys ++ [w])
        (g.map Prod.fst) := by
  induction ws generalizing g with
  | nil => rfl
  | cons w t ih =>
    rw [List.foldl_cons, List.foldl_cons, ih, bumpWord_keys, any_keys]

lemma updateVocabulary_docs (st : EmbState) :
    (updateVocabulary st).documents = st.documents ∧
    (updateVocabulary st).totalDocuments = st.totalDocuments := by
  unfold updateVocabulary calculateIDF
  split <;> exact ⟨rfl, rfl⟩

lemma getEmbedding_some_state (t id : String) (st : EmbState)
    (h : (expandSemanticTerms (preprocessText t)).isEmpty = false) :
    ∃ dv : DocVector,
      ((getEmbedding t (some id) st).2).documents = mapSet id dv st.documents ∧
      ((getEmbedding t (some id) st).2).totalDocuments =
        (mapSet id dv st.documents).length := by
  unfold getEmbedding
  refine ⟨{ tfidf := calculateTFIDF (expandSemanticTerms (preprocessText t)), normalized := [],
            wordCount := (expandSemanticTerms (preprocessText t)).length }, ?_, ?_⟩ <;>
    simp [h]

lemma uploadDocument_invariant (id filename : String) (fileType : FileType)
    (uploadedAt : String) (fileSize pages : ℕ) (extractedText : String) (st : SystemState)
    (ha : (expandSemanticTerms (preprocessText extractedText)).isEmpty = false)
    (hkeys : st.docs.map Prod.fst = st.emb.documents.map Prod.fst) :
    (uploadDocument id filename fileType uploadedAt fileSize pages extractedText st).docs.map Prod.fst =
      (uploadDocument id filename fileType uploadedAt fileSize pages extractedText st).emb.documents.map Prod.fst ∧
    (uploadDocument id filename fileType uploadedAt fileSize pages extractedText st).emb.totalDocuments =
      (uploadDocument id filename fileType uploadedAt fileSize pages extractedText st).emb.documents.length := by
  obtain ⟨dv, hdocs, htot⟩ := getEmbedding_some_state extractedText id st.emb ha
  unfold uploadDocument
  dsimp only
  constructor
  · rw [(updateVocabulary_docs _).1, hdocs, mapSet_keys, mapSet_keys]
    rw [any_keys, any_keys id st.emb.documents, hkeys]
  · rw [(updateVocabulary_docs _).2, (updateVocabulary_docs _).1, hdocs, htot]

lemma uploadAll_invariant : ∀ (ops : List UploadArgs) (st : SystemState),
    (∀ a ∈ ops, (expandSemanticTerms (preprocessText a.extractedText)).isEmpty = false) →
    st.docs.map Prod.fst = st.emb.documents.map Prod.fst →
    st.emb.totalDocuments = st.emb.documents.length →
    (uploadAll ops st).docs.map Prod.fst = (uploadAll ops st).emb.documents.map Prod.fst ∧
    (uploadAll ops st).emb.totalDocuments = (uploadAll ops st).emb.documents.length := by
  intro ops
  induction ops with
  | nil =>
    intro st _ hkeys htot
    exact ⟨hkeys, htot⟩
  | cons a t ih =>
    intro st hops hkeys _
    have ha := hops a (List.mem_cons_self a t)
    have step := uploadDocument_invariant a.id a.filename a.fileType a.uploadedAt a.fileSize
      a.pages a.extractedText st ha hkeys
    exact ih _ (fun b hb => hops b (List.mem_cons_of_mem a hb)) step.1 step.2

lemma strTrim_eq_empty {q : String} (h : ∀ c ∈ q.data, c.isWhitespace = true) :
    strTrim q = "" := by
  unfold strTrim
  have h1 : q.data.dropWhile Char.isWhitespace = [] := by
    rw [List.dropWhile_eq_nil_iff]
    exact h
  rw [h1]
  rfl

/-- The keys the query apple adds to the global word-frequency table. -/
lemma gwf_after_search : (((searchDocuments "apple" initState).2).emb.globalWordFreq).map Prod.fst
    = ["apple", "fruit", "food"] := by
  rw [searchDocuments_of_ne initState (by decide)]
  dsimp only
  unfold getEmbedding
  have hne : (expandSemanticTerms (preprocessText "apple")).isEmpty = false := by decide
  simp only [hne, Bool.false_eq_true, if_false]
  rw [foldl_bumpWord_keys]
  decide

lemma uploadD_state : uploadAll [argD] initState =
    uploadDocument "d1" "a.txt" FileType.txt "t" 5 1 "apple" initState := rfl

lemma c5state_tot : ((deleteDocument "d1" (uploadAll [argD] initState)).2).emb.totalDocuments
    = 1 := by
  show (uploadAll [argD] initState).emb.totalDocuments = 1
  rw [uploadD_state]
  unfold uploadDocument
  dsimp only
  rw [(updateVocabulary_docs _).2]
  obtain ⟨dv, _, htot⟩ := getEmbedding_some_state "apple" "d1" initState.emb (by decide)
  rw [htot]
  show (mapSet "d1" dv []).length = 1
  simp [mapSet]

lemma c5state_docs : ((deleteDocument "d1" (uploadAll [argD] initState)).2).docs = [] := by
  unfold deleteDocument
  dsimp only
  rw [uploadD_state]
  unfold uploadDocument
  dsimp only
  unfold mapDelete
  show ((mapSet "d1" _ []).filter fun p => !(p.1 == "d1")) = []
  simp [mapSet]

/-- C1 counterexample: the claim that every returned score lies in the
closed interval from 0 to 1 is false.  Searching apple against the store
holding docA (whose vector equals the query vector and whose text has eight
matching sentences) returns a hybrid result with score 59/50 = 1.18,
because the hybrid blend applies no cap to the keyword score. -/
theorem c1_counterexample : ∃ r ∈ (searchDocuments "apple" stA).1, 1 < r.score := by
  refine ⟨resA, ?_, ?_⟩
  · rw [searchA]
    exact List.mem_singleton.mpr rfl
  · show (1 : ℝ) < resA.score
    norm_num [resA]

/-- C1 amended: every result returned by the search operation has a
nonnegative score, and every result classified semantic or keyword has a
score of at most 1; hybrid scores are uncapped and may exceed 1. -/
theorem c1_score_bounds (q : String) (st : SystemState) (r : SearchResult)
    (h : r ∈ (searchDocuments q st).1) :
    0 ≤ r.score ∧ (r.searchType ≠ SearchType.hybrid → r.score ≤ 1) := by
  obtain ⟨d, _, hscore⟩ := mem_search h
  obtain ⟨_, _, hnn, _, hle⟩ := scoreDocument_inv hscore
  exact ⟨hnn, hle⟩

/-- C1 witness: the amended bound evaluated on the concrete keyword result
of stB. -/
theorem c1_score_bounds_witness :
    resB ∈ (searchDocuments "apple" stB).1 ∧
    0 ≤ resB.score ∧ (resB.searchType ≠ SearchType.hybrid → resB.score ≤ 1) := by
  have hm : resB ∈ (searchDocuments "apple" stB).1 := by
    rw [searchB]
    exact List.mem_singleton.mpr rfl
  exact ⟨hm, c1_score_bounds "apple" stB resB hm⟩

/-- C2 counterexample: the claim that term frequencies are computed on the
expanded multiset before duplicate removal is false.  For the token
sequence xyzzy xyzzy abcde, the pre-deduplication frequency of xyzzy would
be 2/3, but the code deduplicates inside expandSemanticTerms first and then
computes 1/2. -/
theorem c2_counterexample :
    calculateTFIDF (expandSemanticTerms ["xyzzy", "xyzzy", "abcde"]) "xyzzy" ≠
      (countOcc (expandSemanticTermsMulti ["xyzzy", "xyzzy", "abcde"]) "xyzzy" : ℚ) /
        ((expandSemanticTermsMulti ["xyzzy", "xyzzy", "abcde"]).length : ℚ) := by
  have h1 : expandSemanticTerms ["xyzzy", "xyzzy", "abcde"] = ["xyzzy", "abcde"] := by decide
  have h2 : expandSemanticTermsMulti ["xyzzy", "xyzzy", "abcde"] =
      ["xyzzy", "xyzzy", "abcde"] := by decide
  have h3 : countOcc ["xyzzy", "xyzzy", "abcde"] "xyzzy" = 2 := by decide
  have h4 : countOcc ["xyzzy", "abcde"] "xyzzy" = 1 := by decide
  rw [h1, h2, h3, calculateTFIDF_of_mem (by simp), h4]
  have h5 : (["xyzzy", "abcde"] : List String).length = 2 := rfl
  have h6 : (["xyzzy", "xyzzy", "abcde"] : List String).length = 3 := rfl
  rw [h5, h6]
  norm_num

/-- C2 amended: the term-frequency map used for vector weighting is
computed from the expanded token list after duplicate removal, so every
present term has frequency 1 over the number of distinct expanded tokens. -/
theorem c2_tf_after_dedup (words : List String) (w : String)
    (h : w ∈ expandSemanticTerms words) :
    calculateTFIDF (expandSemanticTerms words) w =
      1 / ((expandSemanticTerms words).length : ℚ) := by
  rw [calculateTFIDF_of_mem h]
  have hno : (expandSemanticTerms words).Nodup := dedupFirst_nodup _
  have hc : countOcc (expandSemanticTerms words) w = 1 := by
    rw [countOcc_eq_count]
    exact List.count_eq_one_of_mem hno h
  rw [hc]
  norm_num

/-- C2 witness: the deduplicated frequency of fruit in the expansion of
apple. -/
theorem c2_tf_after_dedup_witness :
    "fruit" ∈ expandSemanticTerms ["apple"] ∧
    calculateTFIDF (expandSemanticTerms ["apple"]) "fruit" =
      1 / ((expandSemanticTerms ["apple"]).length : ℚ) :=
  ⟨by decide, c2_tf_after_dedup ["apple"] "fruit" (by decide)⟩

/-- C3 counterexample: the claim that a document with empty extractedText
and empty keywords never appears in any search result is false.  docB has
empty text, empty keywords and the zero vector, yet searching apple returns
it, because its filename apple.txt contains the query and the +0.3 filename
signal alone clears the keyword threshold. -/
theorem c3_counterexample :
    docB.extractedText = "" ∧ docB.keywords = [] ∧
    ∃ r ∈ (searchDocuments "apple" stB).1, r.document = docB := by
  refine ⟨rfl, rfl, resB, ?_, rfl⟩
  rw [searchB]
  exact List.mem_singleton.mpr rfl

/-- C3 amended: a stored document with empty extractedText, empty keywords
and the zero (or absent) vector never appears in the results of any query
whose lowercased form is not a substring of the lowercased filename; the
filename signal is the only way such a document can surface. -/
theorem c3_empty_doc_excluded (q : String) (st : SystemState) (d : SimpleDocument)
    (ht : d.extractedText = "") (hk : d.keywords = [])
    (he : d.embedding = none ∨ d.embedding = some (List.replicate 100 (0 : ℝ)))
    (hf : incl (strToLower d.filename) (strToLower q) = false) :
    ∀ r ∈ (searchDocuments q st).1, r.document ≠ d := by
  intro r hr hrd
  obtain ⟨d', _, hscore⟩ := mem_search hr
  obtain ⟨hdoc, _, _, _, _⟩ := scoreDocument_inv hscore
  rw [hdoc] at hrd
  rw [hrd] at hscore
  have hnone : scoreDocument (getEmbedding q none st.emb).1 (strToLower q) d = none := by
    apply scoreDocument_none
    · unfold semanticScoreOf
      rcases he with he | he <;> rw [he]
      exact cosineSimilarity_zero_right _ 100
    · unfold keywordScoreOf
      rw [hf, hk, ht]
      have hsent : matchedSentencesOf (strToLower q) "" = [] := by
        unfold matchedSentencesOf
        have : sentencesOf "" = [] := by decide
        rw [this]
        rfl
      rw [hsent]
      simp
  rw [hnone] at hscore
  exact Option.noConfusion hscore

/-- C3 witness: the amended exclusion evaluated on docE (filename b.txt)
and the query apple over the empty store. -/
theorem c3_empty_doc_excluded_witness :
    (docE.extractedText = "" ∧ docE.keywords = [] ∧
      incl (strToLower docE.filename) (strToLower "apple") = false) ∧
    ∀ r ∈ (searchDocuments "apple" initState).1, r.document ≠ docE :=
  ⟨⟨rfl, rfl, by decide⟩,
   c3_empty_doc_excluded "apple" initState docE rfl rfl (Or.inr rfl) (by decide)⟩

/-- C4 counterexample: the claim that search leaves all process-wide term
statistics unchanged is false.  Searching apple against the initial state
mutates the global word-frequency table: the query embedding generation
adds the keys apple, fruit and food. -/
theorem c4_counterexample :
    ((searchDocuments "apple" initState).2).emb.globalWordFreq ≠
      initState.emb.globalWordFreq := by
  intro h
  have h2 := congrArg (fun l => l.map Prod.fst) h
  dsimp only at h2
  rw [gwf_after_search] at h2
  exact List.noConfusion h2

/-- C4 amended: search leaves the document store, the embedding service
document map (hence all stored vectors), totalDocuments and the vocabulary
unchanged; only the global word-frequency table is mutated, by the query
embedding generation. -/
theorem c4_search_preserves_store (q : String) (st : SystemState) :
    ((searchDocuments q st).2).docs = st.docs ∧
    ((searchDocuments q st).2).emb.documents = st.emb.documents ∧
    ((searchDocuments q st).2).emb.totalDocuments = st.emb.totalDocuments ∧
    ((searchDocuments q st).2).emb.vocabulary = st.emb.vocabulary := by
  by_cases h : strTrim q = ""
  · rw [searchDocuments_empty st h]
    exact ⟨rfl, rfl, rfl, rfl⟩
  · rw [searchDocuments_of_ne st h]
    obtain ⟨h1, h2, h3⟩ := getEmbedding_none_state q st.emb
    exact ⟨rfl, h1, h2, h3⟩

/-- C5 counterexample: the claim that totalDocuments always equals the
number of Documents currently in the store is false once a delete occurs.
After uploading one document with text apple and deleting it, the store is
empty but totalDocuments is still 1, because deleteDocument never touches
the embedding service state. -/
theorem c5_counterexample :
    ((deleteDocument "d1" (uploadAll [argD] initState)).2).emb.totalDocuments ≠
      ((deleteDocument "d1" (uploadAll [argD] initState)).2).docs.length := by
  rw [c5state_tot, c5state_docs]
  norm_num

/-- C5 amended: after every sequence of inserts whose texts expand to a
nonempty token list (and no deletes), totalDocuments equals the number of
Documents in the store; a delete removes the document from the store while
leaving totalDocuments unchanged, breaking the equality. -/
theorem c5_insert_only (ops : List UploadArgs)
    (h : ∀ a ∈ ops, (expandSemanticTerms (preprocessText a.extractedText)).isEmpty = false) :
    (uploadAll ops initState).emb.totalDocuments = (uploadAll ops initState).docs.length := by
  obtain ⟨hk, ht⟩ := uploadAll_invariant ops initState h rfl rfl
  rw [ht]
  have h2 := congrArg List.length hk
  simpa using h2.symm

/-- C5 witness: the insert-only invariant evaluated on one upload of the
text apple. -/
theorem c5_insert_only_witness :
    (∀ a ∈ [argD], (expandSemanticTerms (preprocessText a.extractedText)).isEmpty = false) ∧
    (uploadAll [argD] initState).emb.totalDocuments = (uploadAll [argD] initState).docs.length :=
  ⟨by decide, c5_insert_only [argD] (by decide)⟩

/-- C6 confirmed: running the same search twice against the same store
returns the identical result list: the store (the document map) is the only
state the result depends on, and a search leaves it unchanged, so a second
run on the post-search state reproduces the first run exactly, including
scores, types, matched sections and order. -/
theorem c6_deterministic (q : String) (st : SystemState) :
    (searchDocuments q ((searchDocuments q st).2)).1 = (searchDocuments q st).1 := by
  by_cases h : strTrim q = ""
  · rw [searchDocuments_empty st h]
    dsimp only
    rw [searchDocuments_empty st h]
  · rw [searchDocuments_of_ne ((searchDocuments q st).2) h, searchDocuments_of_ne st h]
    dsimp only
    rw [@candidateResults_congr q st { docs := st.docs, emb := (getEmbedding q none st.emb).2 } rfl]

/-- C7 confirmed: every search result list has at most 10 entries, is
ordered by score descending, and the sort is stable: for any predicate
that only holds within one score class, filtering the returned list gives
an initial segment of the same filter over the candidate list, which is
built in store insertion order. -/
theorem c7_ranking (q : String) (st : SystemState) :
    ((searchDocuments q st).1).length ≤ 10 ∧
    List.Pairwise (fun a b => b.score ≤ a.score) (searchDocuments q st).1 ∧
    ∀ p : SearchResult → Bool, (∀ a b, p a = true → p b = true → a.score = b.score) →
      ∃ rest, ((searchDocuments q st).1.filter p) ++ rest = (candidateResults q st).filter p := by
  by_cases h : strTrim q = ""
  · rw [searchDocuments_empty st h]
    refine ⟨by norm_num, List.Pairwise.nil, ?_⟩
    intro p hp
    exact ⟨(candidateResults q st).filter p, rfl⟩
  · rw [searchDocuments_of_ne st h]
    dsimp only
    refine ⟨List.length_take_le 10 _, ?_, ?_⟩
    · exact (sorted_byScoreDesc (candidateResults q st)).sublist (List.take_sublist 10 _)
    · intro p hp
      refine ⟨((List.insertionSort byScoreDesc (candidateResults q st)).drop 10).filter p, ?_⟩
      rw [← List.filter_append, List.take_append_drop]
      exact filter_insertionSort_of_const p hp _

/-- C7 witness: the cap and stability conjuncts evaluated on stB with the
everywhere-false predicate. -/
theorem c7_ranking_witness :
    ((searchDocuments "apple" stB).1).length ≤ 10 ∧
    ∃ rest, ((searchDocuments "apple" stB).1.filter fun _ => false) ++ rest =
      (candidateResults "apple" stB).filter fun _ => false := by
  have h := c7_ranking "apple" stB
  exact ⟨h.1, h.2.2 (fun _ => false) (by simp)⟩

/-- C8 confirmed: cosine similarity of a vector with at least one nonzero
component against itself is exactly 1, and cosine similarity of any vector
against a zero vector is 0 through the zero-magnitude guard. -/
theorem c8_cosine :
    (∀ v : List ℝ, (∃ x ∈ v, x ≠ 0) → cosineSimilarity v v = 1) ∧
    (∀ (v : List ℝ) (n : ℕ), cosineSimilarity v (List.replicate n 0) = 0) := by
  constructor
  · rintro v ⟨x, hx, hne⟩
    exact cosineSimilarity_self (sumSq_pos_of_mem hx hne)
  · intro v n
    exact cosineSimilarity_zero_right v n

/-- C8 witness: both cosine identities evaluated on the one-dimensional
vector with entry 1. -/
theorem c8_cosine_witness :
    cosineSimilarity [(1 : ℝ)] [(1 : ℝ)] = 1 ∧
    cosineSimilarity [(1 : ℝ)] (List.replicate 1 (0 : ℝ)) = 0 :=
  ⟨c8_cosine.1 [(1 : ℝ)] ⟨1, by simp, by norm_num⟩, c8_cosine.2 [(1 : ℝ)] 1⟩

/-- C9 confirmed: a query consisting only of whitespace characters (or
empty) yields the empty result list for every store. -/
theorem c9_empty_query (st : SystemState) (q : String)
    (h : ∀ c ∈ q.data, c.isWhitespace = true) :
    (searchDocuments q st).1 = [] := by
  rw [searchDocuments_empty st (strTrim_eq_empty h)]

/-- C9 witness: the single-space query over the initial store. -/
theorem c9_empty_query_witness :
    (∀ c ∈ (" " : String).data, c.isWhitespace = true) ∧
    (searchDocuments " " initState).1 = [] :=
  ⟨by decide, c9_empty_query initState " " (by decide)⟩

/-- C10 confirmed: every result records at most 3 matched sections; each
entry has context equal to text, and the entries are exactly the first
three trimmed sentences whose lowercased (untrimmed) form contains the
lowercased query, in the order the sentences occur in the document text. -/
theorem c10_matched_sections (q : String) (st : SystemState) (r : SearchResult)
    (h : r ∈ (searchDocuments q st).1) :
    r.matchedSections.length ≤ 3 ∧
    (∀ m ∈ r.matchedSections, m.context = m.text) ∧
    r.matchedSections = ((matchedSentencesOf (strToLower q) r.document.extractedText).map
      fun sentence => ({ text := strTrim sentence, context := strTrim sentence } : MatchedSection)).take 3 ∧
    (∀ m ∈ r.matchedSections, ∃ s ∈ sentencesOf r.document.extractedText,
      incl (strToLower s) (strToLower q) = true ∧ m.text = strTrim s) := by
  obtain ⟨d, _, hscore⟩ := mem_search h
  obtain ⟨hdoc, hms, _, _, _⟩ := scoreDocument_inv hscore
  subst hdoc
  refine ⟨?_, ?_, hms, ?_⟩
  · rw [hms]
    exact List.length_take_le 3 _
  · intro m hm
    rw [hms] at hm
    have hm2 := (List.take_sublist 3 _).subset hm
    rcases List.mem_map.mp hm2 with ⟨s, _, rfl⟩
    rfl
  · intro m hm
    rw [hms] at hm
    have hm2 := (List.take_sublist 3 _).subset hm
    rcases List.mem_map.mp hm2 with ⟨s, hs, rfl⟩
    rcases List.mem_filter.mp hs with ⟨hsent, hincl⟩
    exact ⟨s, hsent, hincl, rfl⟩

/-- C10 witness: the matched-section shape evaluated on the concrete
result of stB. -/
theorem c10_matched_sections_witness :
    resB ∈ (searchDocuments "apple" stB).1 ∧ resB.matchedSections.length ≤ 3 := by
  have hm : resB ∈ (searchDocuments "apple" stB).1 := by
    rw [searchB]
    exact List.mem_singleton.mpr rfl
  exact ⟨hm, (c10_matched_sections "apple" stB resB hm).1⟩

end EnterpriseSearch
